import Mathlib

/-!
Verification of the pytvProject channel/timeline/transition core.

The Python sources are shallowly embedded:
* Python `float` wall-clock values are modelled as rationals (`ℚ`);
* Python `int` is `ℤ` (or `ℕ` where the source value is provably non-negative);
* Python's `int(x)` float-to-int conversion is truncation toward zero (`pyInt`);
* Python's `%` on integers with a positive right operand agrees with Lean's
  `Int.emod`, which is used directly;
* `bisect.bisect_right(a, x)` on the sorted lists produced by the builders is
  the number of elements `≤ x` (`bisectRight`);
* the mutable fields that `ChannelManager.offset` updates (`path`,
  `duration_us`, `duration`) are part of the `Channel` structure and the
  update is modelled by returning a new `Channel`.
-/

namespace PyTV

/-- `TICK_HZ = 1_000_000` from channel_manager.py: microseconds per second. -/
def TICK_HZ : ℕ := 1000000

/-- Python's `int(x)` applied to a (rational-modelled) float: truncation
toward zero, i.e. `Int.tdiv` of numerator by denominator. -/
def pyInt (q : ℚ) : ℤ := q.num.tdiv (q.den : ℤ)

/-- `dataclass Channel` from channel_manager.py.  The final three fields are
the mutable per-call outputs that `offset()` assigns. -/
structure Channel where
  files : List String := []
  durations_us : List ℕ := []
  start_us : List ℕ := []
  total_us : ℕ := 0
  path : Option String := none
  duration_us : ℕ := 0
  duration : ℚ := 0
deriving Repr, DecidableEq

/-- The cumulative start offsets: `start_us` as built by both builders
(`_load_channel` step 2 and `_add_channel`): one entry per segment, the
running sum of the durations before it. -/
def segmentStarts : List ℕ → ℕ → List ℕ
  | [], _ => []
  | d :: ds, acc => acc :: segmentStarts ds (acc + d)

/-- `ChannelManager._load_channel`, probe path (step 2): keep the files whose
probed duration is non-zero, then build starts and total as
`start_us = [0, d₀, d₀+d₁, …]` and `total_us = start_us[-1] + durations[-1]`.
The argument is the `(name, probed duration)` list in directory-listing
order (the caller sorts it). -/
def loadChannelProbe (pairs : List (String × ℕ)) : Channel :=
  let keep := pairs.filter (fun p => p.2 ≠ 0)
  if keep.isEmpty then {} else
  let durations := keep.map Prod.snd
  let starts := segmentStarts durations 0
  { files := keep.map Prod.fst
    durations_us := durations
    start_us := starts
    total_us := starts.getLastD 0 + durations.getLastD 0 }

/-- `playlist_builder._add_channel`: probe gives `(duration_us, frames)` per
file; files with `frames == 0` are skipped; `start_us` records the running
`cum_us` before each kept file and `total_us` is the final `cum_us`. -/
def addChannel (probed : List (String × ℕ × ℕ)) : Channel :=
  let keep := probed.filter (fun p => p.2.2 ≠ 0)
  let durations := keep.map (fun p => p.2.1)
  { files := keep.map Prod.fst
    durations_us := durations
    start_us := segmentStarts durations 0
    total_us := durations.foldl (· + ·) 0 }

/-- `bisect.bisect_right a x` for the sorted `start_us` lists used here:
the number of entries `≤ x`. -/
def bisectRight (a : List ℕ) (x : ℕ) : ℕ := a.countP (fun y => decide (y ≤ x))

/-- `elapsed_us = int((now - ref) * TICK_HZ)` from `ChannelManager.offset`. -/
def elapsedUs (now ref : ℚ) : ℤ := pyInt ((now - ref) * (TICK_HZ : ℚ))

/-- `rel_us = elapsed_us % chan.total_us` (Python floor-mod; non-negative for
the positive modulus, so returned as `ℕ`). -/
def relUs (chan : Channel) (elapsed : ℤ) : ℕ :=
  (elapsed % (chan.total_us : ℤ)).toNat

/-- `idx = max(0, bisect.bisect_right(chan.start_us, rel_us) - 1)`;
`ℕ` subtraction already truncates at zero exactly like the `max`. -/
def segIdx (chan : Channel) (rel : ℕ) : ℕ :=
  max 0 (bisectRight chan.start_us rel - 1)

/-- Body of `ChannelManager.offset` for a present channel with
`total_us ≠ 0`: returns the updated channel (the `chan.path`,
`chan.duration_us`, `chan.duration` assignments), the returned seconds
offset `(rel_us - chan.start_us[idx]) / 1_000_000`, and the selected
segment index. -/
def offsetCh (chan : Channel) (now ref : ℚ) : Channel × ℚ × ℕ :=
  if chan.total_us = 0 then (chan, 0, 0)
  else
    let rel := relUs chan (elapsedUs now ref)
    let idx := segIdx chan rel
    ({ chan with
        path := some (chan.files.getD idx "")
        duration_us := chan.durations_us.getD idx 0
        duration := (chan.durations_us.getD idx 0 : ℚ) / 1000000 },
     ((rel : ℚ) - (chan.start_us.getD idx 0 : ℚ)) / 1000000,
     idx)

theorem segmentStarts_length (ds : List ℕ) (a : ℕ) :
    (segmentStarts ds a).length = ds.length := by
  induction ds generalizing a with
  | nil => rfl
  | cons d ds ih => simp [segmentStarts, ih]

theorem segmentStarts_getD (ds : List ℕ) (a i : ℕ) (h : i < ds.length) :
    (segmentStarts ds a).getD i 0 = a + (ds.take i).sum := by
  induction ds generalizing a i with
  | nil => simp at h
  | cons d ds ih =>
    cases i with
    | zero => simp [segmentStarts]
    | succ i =>
      simp only [segmentStarts, List.getD_cons_succ, List.take_succ_cons,
        List.sum_cons]
      rw [ih (a + d) i (by simpa using h)]
      ring

theorem segmentStarts_head (ds : List ℕ) (a : ℕ) (h : ds ≠ []) :
    (segmentStarts ds a).head? = some a := by
  cases ds with
  | nil => exact absurd rfl h
  | cons d ds => rfl

theorem segmentStarts_consec (ds : List ℕ) (a i : ℕ) (h : i + 1 < ds.length) :
    (segmentStarts ds a).getD i 0 + ds.getD i 0 =
      (segmentStarts ds a).getD (i + 1) 0 := by
  have hi : i < ds.length := Nat.lt_of_succ_lt h
  rw [segmentStarts_getD ds a i hi, segmentStarts_getD ds a (i + 1) h,
    List.getD_eq_getElem ds 0 hi]
  have := List.sum_take_succ ds i hi
  simp only [List.get_eq_getElem] at this
  rw [this]
  ring

theorem getLastD_eq_getD (l : List ℕ) (d : ℕ) :
    l.getLastD d = l.getD (l.length - 1) d := by
  rw [List.getLastD_eq_getLast?, List.getLast?_eq_getElem?,
    List.getD_eq_getElem?_getD]

theorem segmentStarts_last_total (ds : List ℕ) (a : ℕ) (h : ds ≠ []) :
    (segmentStarts ds a).getLastD 0 + ds.getLastD 0 = a + ds.sum := by
  have hlen : 0 < ds.length := List.length_pos.mpr h
  have hn : ds.length - 1 < ds.length := by omega
  rw [getLastD_eq_getD, getLastD_eq_getD, segmentStarts_length,
    segmentStarts_getD ds a (ds.length - 1) hn,
    List.getD_eq_getElem ds 0 hn]
  have hsum := List.sum_take_succ ds (ds.length - 1) hn
  have htake : ds.length - 1 + 1 = ds.length := by omega
  rw [htake, List.take_length] at hsum
  omega

theorem foldl_add_eq_sum (l : List ℕ) (a : ℕ) : l.foldl (· + ·) a = a + l.sum := by
  induction l generalizing a with
  | nil => simp
  | cons x xs ih => simp [ih, Nat.add_assoc]

/-- The cycle invariants of a built `Channel`: the first start is zero (when
any segment exists), consecutive starts differ by the durations, and the
durations sum to `total_us`. -/
def cycleInvariant (c : Channel) : Prop :=
  (c.files ≠ [] → c.start_us.head? = some 0) ∧
  (∀ i, i + 1 < c.start_us.length →
    c.start_us.getD i 0 + c.durations_us.getD i 0 = c.start_us.getD (i + 1) 0) ∧
  c.durations_us.sum = c.total_us

theorem loadChannelProbe_invariant (pairs : List (String × ℕ)) :
    cycleInvariant (loadChannelProbe pairs) := by
  unfold cycleInvariant loadChannelProbe
  cases h : pairs.filter (fun p => p.2 ≠ 0) with
  | nil => simp
  | cons q qs =>
    have hds : (q :: qs).map Prod.snd ≠ [] := by simp
    simp only [List.isEmpty_cons, Bool.false_eq_true, if_false]
    refine ⟨fun _ => segmentStarts_head _ 0 hds, fun i hi => ?_, ?_⟩
    · exact segmentStarts_consec _ 0 i (by
        rwa [segmentStarts_length] at hi)
    · have := segmentStarts_last_total ((q :: qs).map Prod.snd) 0 hds
      omega

theorem addChannel_invariant (probed : List (String × ℕ × ℕ)) :
    cycleInvariant (addChannel probed) := by
  unfold cycleInvariant addChannel
  cases h : probed.filter (fun p => p.2.2 ≠ 0) with
  | nil => simp [segmentStarts]
  | cons q qs =>
    have hds : (q :: qs).map (fun p => p.2.1) ≠ [] := by simp
    dsimp only
    refine ⟨fun _ => segmentStarts_head _ 0 hds, fun i hi => ?_, ?_⟩
    · exact segmentStarts_consec _ 0 i (by
        rwa [segmentStarts_length] at hi)
    · rw [foldl_add_eq_sum, Nat.zero_add]

/-- C2: every Channel produced by `ChannelManager._load_channel`'s probe path
and by `playlist_builder._add_channel` has `start_us[0] = 0`, consecutive
starts satisfying `start_us[i] + durations_us[i] = start_us[i+1]`, and
durations summing to `total_us`. -/
theorem builders_satisfy_cycle_invariant (pairs : List (String × ℕ))
    (probed : List (String × ℕ × ℕ)) :
    cycleInvariant (loadChannelProbe pairs) ∧ cycleInvariant (addChannel probed) :=
  ⟨loadChannelProbe_invariant pairs, addChannel_invariant probed⟩

/-- Witness for C2 at a concrete probe result. -/
theorem builders_satisfy_cycle_invariant_witness :
    cycleInvariant (loadChannelProbe [(("a.mp4"), 2000000), (("b.mp4"), 0), (("c.mp4"), 3000000)]) ∧
      cycleInvariant (addChannel [(("a.mp4"), 2000000, 48), (("b.mp4"), 500000, 12)]) :=
  builders_satisfy_cycle_invariant _ _

theorem offsetCh_fst_files (chan : Channel) (now ref : ℚ) :
    ((offsetCh chan now ref).1).files = chan.files := by
  by_cases h : chan.total_us = 0 <;> simp [offsetCh, h]

theorem offsetCh_fst_durations (chan : Channel) (now ref : ℚ) :
    ((offsetCh chan now ref).1).durations_us = chan.durations_us := by
  by_cases h : chan.total_us = 0 <;> simp [offsetCh, h]

theorem offsetCh_fst_starts (chan : Channel) (now ref : ℚ) :
    ((offsetCh chan now ref).1).start_us = chan.start_us := by
  by_cases h : chan.total_us = 0 <;> simp [offsetCh, h]

theorem offsetCh_fst_total (chan : Channel) (now ref : ℚ) :
    ((offsetCh chan now ref).1).total_us = chan.total_us := by
  by_cases h : chan.total_us = 0 <;> simp [offsetCh, h]

/-- C1: `ChannelManager.offset` is a pure function of the channel's segment
list and the wall-clock arguments: any channel agreeing on
`files`/`durations_us`/`start_us`/`total_us` (in particular one whose mutable
`path`/`duration` fields were overwritten by an earlier call) yields the
identical `(seconds, segment index)` result, so two calls with identical
`(now, ref)` on the same catalog resolve identically. -/
theorem offset_deterministic (chan chan₂ : Channel) (now ref : ℚ)
    (hf : chan₂.files = chan.files) (hd : chan₂.durations_us = chan.durations_us)
    (hs : chan₂.start_us = chan.start_us) (ht : chan₂.total_us = chan.total_us) :
    (offsetCh chan₂ now ref).2 = (offsetCh chan now ref).2 ∧
      (offsetCh ((offsetCh chan now ref).1) now ref).2 = (offsetCh chan now ref).2 := by
  have key : ∀ c : Channel, c.files = chan.files → c.durations_us = chan.durations_us →
      c.start_us = chan.start_us → c.total_us = chan.total_us →
      (offsetCh c now ref).2 = (offsetCh chan now ref).2 := by
    intro c h1 h2 h3 h4
    by_cases h : chan.total_us = 0
    · simp [offsetCh, h, h4]
    · simp [offsetCh, h, h1, h2, h3, h4, relUs, segIdx]
  exact ⟨key chan₂ hf hd hs ht,
    key _ (offsetCh_fst_files chan now ref) (offsetCh_fst_durations chan now ref)
      (offsetCh_fst_starts chan now ref) (offsetCh_fst_total chan now ref)⟩

/-- Witness for C1: a channel whose mutable fields were already overwritten
resolves identically to the pristine one at a concrete instant. -/
theorem offset_deterministic_witness :
    (offsetCh
        { files := [("a.mp4"), ("b.mp4")], durations_us := [2000000, 3000000],
          start_us := [0, 2000000], total_us := 5000000,
          path := some ("b.mp4"), duration_us := 3000000, duration := 3 }
        (7 : ℚ) 0).2 =
      (offsetCh
        { files := [("a.mp4"), ("b.mp4")], durations_us := [2000000, 3000000],
          start_us := [0, 2000000], total_us := 5000000 }
        (7 : ℚ) 0).2 :=
  (offset_deterministic _ _ 7 0 rfl rfl rfl rfl).1

theorem segmentStarts_le (ds : List ℕ) (a : ℕ) :
    ∀ x ∈ segmentStarts ds a, a ≤ x := by
  induction ds generalizing a with
  | nil => intro x hx; simp [segmentStarts] at hx
  | cons d ds ih =>
    intro x hx
    simp only [segmentStarts, List.mem_cons] at hx
    rcases hx with rfl | hx
    · exact le_refl x
    · exact le_trans (Nat.le_add_right a d) (ih (a + d) x hx)

theorem segmentStarts_sorted (ds : List ℕ) (a : ℕ) :
    (segmentStarts ds a).Sorted (· ≤ ·) := by
  induction ds generalizing a with
  | nil => exact List.sorted_nil
  | cons d ds ih =>
    rw [segmentStarts, List.sorted_cons]
    exact ⟨fun b hb => le_trans (Nat.le_add_right a d) (segmentStarts_le ds (a + d) b hb),
      ih (a + d)⟩

theorem sorted_getD_le_iff (l : List ℕ) (x : ℕ) (hs : l.Sorted (· ≤ ·)) :
    ∀ j, j < l.length →
      (l.getD j 0 ≤ x ↔ j < l.countP (fun y => decide (y ≤ x))) := by
  induction l with
  | nil => intro j hj; simp at hj
  | cons c t ih =>
    rw [List.sorted_cons] at hs
    intro j hj
    by_cases hc : c ≤ x
    · rw [List.countP_cons_of_pos _ _ (by simpa using hc)]
      cases j with
      | zero =>
        simp only [List.getD_cons_zero]
        exact ⟨fun _ => Nat.succ_pos _, fun _ => hc⟩
      | succ j =>
        rw [List.getD_cons_succ]
        have := ih hs.2 j (by simpa using hj)
        omega
    · rw [List.countP_cons_of_neg _ _ (by simpa using hc)]
      have ht0 : t.countP (fun y => decide (y ≤ x)) = 0 := by
        rw [List.countP_eq_zero]
        intro b hb
        simp only [decide_eq_true_eq]
        exact fun hbx => hc (le_trans (hs.1 b hb) hbx)
      rw [ht0]
      cases j with
      | zero =>
        simp only [List.getD_cons_zero]
        exact ⟨fun h => absurd h hc, fun h => absurd h (Nat.lt_irrefl 0)⟩
      | succ j =>
        rw [List.getD_cons_succ]
        have hjt : j < t.length := by simpa using hj
        have hmem : t.getD j 0 ∈ t := by
          rw [List.getD_eq_getElem t 0 hjt]
          exact List.getElem_mem hjt
        have hle : c ≤ t.getD j 0 := hs.1 _ hmem
        exact ⟨fun h => absurd (le_trans hle h) hc,
          fun h => absurd h (Nat.not_lt_zero _)⟩

theorem loadChannelProbe_cons (pairs : List (String × ℕ)) (q : String × ℕ)
    (qs : List (String × ℕ)) (h : pairs.filter (fun p => p.2 ≠ 0) = q :: qs) :
    loadChannelProbe pairs =
      { files := (q :: qs).map Prod.fst,
        durations_us := (q :: qs).map Prod.snd,
        start_us := segmentStarts ((q :: qs).map Prod.snd) 0,
        total_us := ((q :: qs).map Prod.snd).sum } := by
  have hds : (q :: qs).map Prod.snd ≠ [] := by simp
  have hlast := segmentStarts_last_total ((q :: qs).map Prod.snd) 0 hds
  unfold loadChannelProbe
  rw [h]
  simp only [List.isEmpty_cons, Bool.false_eq_true, if_false]
  simp only [Channel.mk.injEq, true_and, and_true]
  omega

theorem loadChannelProbe_total_pos (pairs : List (String × ℕ)) (q : String × ℕ)
    (qs : List (String × ℕ)) (h : pairs.filter (fun p => p.2 ≠ 0) = q :: qs) :
    0 < (loadChannelProbe pairs).total_us := by
  rw [loadChannelProbe_cons pairs q qs h]
  have hq : q ∈ pairs.filter (fun p => p.2 ≠ 0) := by
    rw [h]; exact List.mem_cons_self q qs
  have hq2 : q.2 ≠ 0 := by simpa using (List.mem_filter.mp hq).2
  simp only [List.map_cons, List.sum_cons]
  omega

/-- C3: for a non-empty built channel, resolution at negative elapsed time
wraps via Euclidean modulo: the cycle position is in `[0, total_us)`, the
selected index is the greatest one whose start does not exceed the position,
the returned pair is `((position - start_us[idx])/10⁶ seconds, idx)` and, for
example, one second before the epoch the position is `total_us - 1_000_000`. -/
theorem resolve_negative_elapsed (pairs : List (String × ℕ)) (now ref : ℚ)
    (chan : Channel) (rel idx : ℕ)
    (hchan : chan = loadChannelProbe pairs)
    (hne : pairs.filter (fun p => p.2 ≠ 0) ≠ [])
    (hneg : elapsedUs now ref < 0)
    (hrel : rel = relUs chan (elapsedUs now ref))
    (hidx : idx = segIdx chan rel) :
    rel < chan.total_us ∧
      chan.start_us.getD idx 0 ≤ rel ∧
      (∀ j, j < chan.start_us.length → chan.start_us.getD j 0 ≤ rel → j ≤ idx) ∧
      (offsetCh chan now ref).2 =
        (((rel : ℚ) - (chan.start_us.getD idx 0 : ℚ)) / 1000000, idx) ∧
      (elapsedUs now ref = -1000000 → 1000000 < chan.total_us →
        rel = chan.total_us - 1000000) := by
  obtain ⟨q, qs, h⟩ : ∃ q qs, pairs.filter (fun p => p.2 ≠ 0) = q :: qs := by
    cases hf : pairs.filter (fun p => p.2 ≠ 0) with
    | nil => exact absurd hf hne
    | cons q qs => exact ⟨q, qs, rfl⟩
  have hchan' := hchan.trans (loadChannelProbe_cons pairs q qs h)
  have htot : 0 < chan.total_us := by
    rw [hchan]; exact loadChannelProbe_total_pos pairs q qs h
  have hstart : chan.start_us = segmentStarts ((q :: qs).map Prod.snd) 0 := by
    rw [hchan']
  have hsorted : chan.start_us.Sorted (· ≤ ·) := by
    rw [hstart]; exact segmentStarts_sorted _ 0
  have hlen : chan.start_us.length = ((q :: qs).map Prod.snd).length := by
    rw [hstart, segmentStarts_length]
  have hlenpos : 0 < chan.start_us.length := by simp [hlen]
  have hhead : chan.start_us.getD 0 0 = 0 := by
    rw [hstart]; simp [List.map_cons, segmentStarts]
  have h0 : (0 : ℤ) < (chan.total_us : ℤ) := by exact_mod_cast htot
  have hrelbound : rel < chan.total_us := by
    rw [hrel, relUs]
    have h1 := Int.emod_nonneg (elapsedUs now ref) (ne_of_gt h0)
    have h2 := Int.emod_lt_of_pos (elapsedUs now ref) h0
    omega
  have hcnt_pos : 0 < chan.start_us.countP (fun y => decide (y ≤ rel)) := by
    refine (sorted_getD_le_iff chan.start_us rel hsorted 0 hlenpos).mp ?_
    rw [hhead]; exact Nat.zero_le rel
  have hcnt_le : chan.start_us.countP (fun y => decide (y ≤ rel)) ≤
      chan.start_us.length := List.countP_le_length _
  have hidx' : idx = chan.start_us.countP (fun y => decide (y ≤ rel)) - 1 := by
    rw [hidx, segIdx, bisectRight]; omega
  refine ⟨hrelbound, ?_, ?_, ?_, ?_⟩
  · have hidxlt : idx < chan.start_us.length := by omega
    exact (sorted_getD_le_iff _ rel hsorted idx hidxlt).mpr (by omega)
  · intro j hj hjle
    have := (sorted_getD_le_iff _ rel hsorted j hj).mp hjle
    omega
  · have hne0 : chan.total_us ≠ 0 := by omega
    rw [hrel, hidx, hrel]
    simp [offsetCh, hne0]
  · intro he hlt
    rw [hrel, relUs, he]
    have hlt' : (1000000 : ℤ) < (chan.total_us : ℤ) := by exact_mod_cast hlt
    have h1 : ((-1000000 : ℤ) + chan.total_us * 1) % (chan.total_us : ℤ) =
        (-1000000 : ℤ) % (chan.total_us : ℤ) := Int.add_mul_emod_self_left _ _ _
    have h2 : ((-1000000 : ℤ) + chan.total_us * 1) % (chan.total_us : ℤ) =
        (-1000000 : ℤ) + chan.total_us * 1 :=
      Int.emod_eq_of_lt (by omega) (by omega)
    omega

theorem pyInt_intCast (n : ℤ) : pyInt ((n : ℚ)) = n := by
  simp [pyInt]

theorem elapsedUs_sub_one (r : ℚ) : elapsedUs (r - 1) r = -1000000 := by
  have h : (r - 1 - r) * ((TICK_HZ : ℕ) : ℚ) = (((-1000000 : ℤ) : ℚ)) := by
    norm_num [TICK_HZ]
  rw [elapsedUs, h, pyInt_intCast]

/-- Witness for C3: one second before the epoch on a concrete 5-second,
two-clip channel. -/
theorem resolve_negative_elapsed_witness :
    relUs (loadChannelProbe [(("a.mp4"), 2000000), (("b.mp4"), 3000000)])
        (elapsedUs 0 1) =
      (loadChannelProbe [(("a.mp4"), 2000000), (("b.mp4"), 3000000)]).total_us
        - 1000000 := by
  have h1 : elapsedUs 0 1 = -1000000 := by
    rw [show (0 : ℚ) = 1 - 1 by norm_num]
    exact elapsedUs_sub_one 1
  exact (resolve_negative_elapsed [(("a.mp4"), 2000000), (("b.mp4"), 3000000)] 0 1
      _ _ _ rfl (by decide) (by rw [h1]; decide) rfl rfl).2.2.2.2
    (by rw [h1]) (by decide)

/-- The value of a run of decimal digits, as Python's `int(...)`. -/
def decimalVal (r : List Char) : ℕ :=
  r.foldl (fun a c => a * 10 + (c.toNat - 48)) 0

/-- `_CHAN_RE = ^chan_(\d+)$` with `re.IGNORECASE`, applied to a directory
name: the extracted channel number, if the name matches. -/
def chanRe (name : String) : Option ℕ :=
  let cs := name.data.map Char.toLower
  if cs.take 5 = ("chan_").data ∧ cs.drop 5 ≠ [] ∧
      (cs.drop 5).all Char.isDigit = true
  then some (decimalVal (cs.drop 5)) else none

/-- Python dict assignment `d[k] = v` on an association list (replaces an
existing binding, else appends). -/
def dictSet (m : List (ℕ × Channel)) (k : ℕ) (v : Channel) : List (ℕ × Channel) :=
  match m with
  | [] => [(k, v)]
  | (k₂, v₂) :: rest =>
    if k₂ = k then (k, v) :: rest else (k₂, v₂) :: dictSet rest k v

/-- Python `d.get(k)` on an association list. -/
def dictGet (m : List (ℕ × Channel)) (k : ℕ) : Option Channel :=
  match m with
  | [] => none
  | (k₂, v) :: rest => if k₂ = k then some v else dictGet rest k

/-- One directory entry of `ChannelManager._discover`: match the name against
`_CHAN_RE`, load the channel from the directory's probed contents, and store
it only when it has files. -/
def discoverStep (acc : List (ℕ × Channel)) (e : String × List (String × ℕ)) :
    List (ℕ × Channel) :=
  match chanRe e.1 with
  | none => acc
  | some n =>
    let chan := loadChannelProbe e.2
    if chan.files ≠ [] then dictSet acc n chan else acc

/-- `ChannelManager._discover` over the scanned directory entries (name and
probed `(file, duration)` contents). -/
def discover (dirs : List (String × List (String × ℕ))) : List (ℕ × Channel) :=
  dirs.foldl discoverStep []

/-- `ChannelManager.offset` at the manager level: the `channels.get(ch)`
lookup and the `not chan or not chan.total_us` sentinel guard in front of the
timeline resolution; paired with the selected index for specification. -/
def managerOffset (m : List (ℕ × Channel)) (ch : ℕ) (now ref : ℚ) :
    ℚ × Option ℕ :=
  match dictGet m ch with
  | none => (0, none)
  | some chan =>
    if chan.total_us = 0 then (0, none)
    else ((offsetCh chan now ref).2.1, some ((offsetCh chan now ref).2.2))

theorem dictGet_dictSet_ne (m : List (ℕ × Channel)) (k n : ℕ) (v : Channel)
    (h : k ≠ n) : dictGet (dictSet m k v) n = dictGet m n := by
  induction m with
  | nil => simp [dictSet, dictGet, h]
  | cons p rest ih =>
    obtain ⟨k₂, v₂⟩ := p
    by_cases hk : k₂ = k
    · subst hk
      simp [dictSet, dictGet, h]
    · simp only [dictSet, if_neg hk]
      by_cases hn : k₂ = n
      · simp [dictGet, hn]
      · simp [dictGet, hn, ih]

theorem discover_foldl_none (dirs : List (String × List (String × ℕ))) (n : ℕ)
    (acc : List (ℕ × Channel))
    (h : ∀ e ∈ dirs, chanRe e.1 = some n → e.2.filter (fun p => p.2 ≠ 0) = [])
    (hacc : dictGet acc n = none) :
    dictGet (dirs.foldl discoverStep acc) n = none := by
  induction dirs generalizing acc with
  | nil => simpa using hacc
  | cons e es ih =>
    rw [List.foldl_cons]
    refine ih (discoverStep acc e) (fun x hx hcr => h x (List.mem_cons_of_mem e hx) hcr) ?_
    unfold discoverStep
    cases hcr : chanRe e.1 with
    | none => exact hacc
    | some m =>
      by_cases hm : m = n
      · subst hm
        have hfil := h e (List.mem_cons_self e es) hcr
        have hfiles : (loadChannelProbe e.2).files = [] := by
          unfold loadChannelProbe
          rw [hfil]
          simp
        simp [hfiles, hacc]
      · dsimp only
        by_cases hf : (loadChannelProbe e.2).files ≠ []
        · rw [if_pos hf, dictGet_dictSet_ne _ _ _ _ hm]
          exact hacc
        · rw [if_neg hf]
          exact hacc

/-- C9: a channel directory whose probing yields zero playable files never
appears in the catalog built by `_discover`, and `offset` on an absent
channel or one with `total_us = 0` returns the `0.0` fallback sentinel (no
index is resolved, no modulo is taken). -/
theorem empty_channel_fallback (dirs : List (String × List (String × ℕ))) (n : ℕ)
    (h : ∀ e ∈ dirs, chanRe e.1 = some n → e.2.filter (fun p => p.2 ≠ 0) = []) :
    dictGet (discover dirs) n = none ∧
      (∀ m ch now ref, dictGet m ch = none → managerOffset m ch now ref = (0, none)) ∧
      (∀ m ch now ref chan, dictGet m ch = some chan → chan.total_us = 0 →
        managerOffset m ch now ref = (0, none)) := by
  refine ⟨discover_foldl_none dirs n [] h rfl, ?_, ?_⟩
  · intro m ch now ref hget
    simp [managerOffset, hget]
  · intro m ch now ref chan hget htot
    simp [managerOffset, hget, htot]

/-- Witness for C9: a concrete scan in which directory `chan_1` holds only a
zero-duration file. -/
theorem empty_channel_fallback_witness :
    dictGet (discover [(("chan_1"), [(("a.mp4"), 0)]), (("CHAN_2"), [(("b.mp4"), 5)])]) 1 =
      none :=
  (empty_channel_fallback _ 1 (by decide)).1

/-- `ChannelManager.next` on the sorted key list: wrap past the end, and map
an unknown current channel to the first key. -/
def nextCh (keys : List ℕ) (cur : ℕ) : ℕ :=
  if keys = [] then cur
  else if cur ∉ keys then keys.getD 0 0
  else keys.getD ((keys.indexOf cur + 1) % keys.length) 0

/-- `ChannelManager.prev` on the sorted key list: Python's
`(i - 1) % n` floor-mod is written `(i + n - 1) % n`. -/
def prevCh (keys : List ℕ) (cur : ℕ) : ℕ :=
  if keys = [] then cur
  else if cur ∉ keys then keys.getLastD 0
  else keys.getD ((keys.indexOf cur + keys.length - 1) % keys.length) 0

/-- `keys = sorted(self.channels)`. -/
def sortedChannels (m : List (ℕ × Channel)) : List ℕ :=
  List.insertionSort (· ≤ ·) (m.map Prod.fst)

def managerNext (m : List (ℕ × Channel)) (cur : ℕ) : ℕ :=
  nextCh (sortedChannels m) cur

def managerPrev (m : List (ℕ × Channel)) (cur : ℕ) : ℕ :=
  prevCh (sortedChannels m) cur

theorem mod_cycle_pred (i n : ℕ) (h : i < n) : ((i + 1) % n + n - 1) % n = i := by
  rcases Nat.lt_or_ge (i + 1) n with hlt | hge
  · rw [Nat.mod_eq_of_lt hlt, show i + 1 + n - 1 = i + n by omega,
      Nat.add_mod_right]
    exact Nat.mod_eq_of_lt h
  · have he : i + 1 = n := by omega
    rw [he, Nat.mod_self, show 0 + n - 1 = n - 1 by omega,
      Nat.mod_eq_of_lt (show n - 1 < n by omega)]
    omega

theorem mod_cycle_succ (i n : ℕ) (h : i < n) : ((i + n - 1) % n + 1) % n = i := by
  rcases Nat.eq_zero_or_pos i with h0 | h0
  · subst h0
    rw [show 0 + n - 1 = n - 1 by omega,
      Nat.mod_eq_of_lt (show n - 1 < n by omega),
      show n - 1 + 1 = n by omega]
    exact Nat.mod_self n
  · rw [show i + n - 1 = i - 1 + n by omega, Nat.add_mod_right,
      Nat.mod_eq_of_lt (show i - 1 < n by omega),
      show i - 1 + 1 = i by omega]
    exact Nat.mod_eq_of_lt h

theorem indexOf_getD (keys : List ℕ) (hnd : keys.Nodup) (j : ℕ)
    (hj : j < keys.length) : keys.indexOf (keys.getD j 0) = j := by
  have hmem : keys.getD j 0 ∈ keys := by
    rw [List.getD_eq_getElem keys 0 hj]
    exact List.getElem_mem hj
  have hlt : keys.indexOf (keys.getD j 0) < keys.length :=
    List.indexOf_lt_length.mpr hmem
  have heq : keys[keys.indexOf (keys.getD j 0)] = keys.getD j 0 :=
    List.getElem_indexOf hlt
  have heq2 : keys[keys.indexOf (keys.getD j 0)] = keys[j] :=
    heq.trans (List.getD_eq_getElem keys 0 hj)
  exact (List.Nodup.getElem_inj_iff hnd).mp heq2

theorem getD_mem (keys : List ℕ) (j : ℕ) (hj : j < keys.length) :
    keys.getD j 0 ∈ keys := by
  rw [List.getD_eq_getElem keys 0 hj]
  exact List.getElem_mem hj

theorem sorted_getD_min (keys : List ℕ) (hs : keys.Sorted (· < ·)) :
    ∀ x ∈ keys, keys.getD 0 0 ≤ x := by
  intro x hx
  obtain ⟨i, hi, rfl⟩ := List.getElem_of_mem hx
  rw [List.getD_eq_getElem keys 0 (lt_of_le_of_lt (Nat.zero_le i) hi)]
  rcases Nat.eq_zero_or_pos i with h0 | h0
  · subst h0; exact le_refl _
  · have := hs.rel_get_of_lt
      (show (⟨0, lt_of_le_of_lt (Nat.zero_le i) hi⟩ : Fin keys.length) < ⟨i, hi⟩ from h0)
    simpa using le_of_lt this

theorem sorted_getD_max (keys : List ℕ) (hs : keys.Sorted (· < ·)) :
    ∀ x ∈ keys, x ≤ keys.getLastD 0 := by
  intro x hx
  obtain ⟨i, hi, rfl⟩ := List.getElem_of_mem hx
  rw [getLastD_eq_getD]
  have hlast : keys.length - 1 < keys.length := by omega
  rw [List.getD_eq_getElem keys 0 hlast]
  rcases Nat.lt_or_ge i (keys.length - 1) with h0 | h0
  · have := hs.rel_get_of_lt
      (show (⟨i, hi⟩ : Fin keys.length) < ⟨keys.length - 1, hlast⟩ from h0)
    simpa using le_of_lt this
  · have : i = keys.length - 1 := by omega
    subst this
    exact le_refl _

theorem prevCh_nextCh (keys : List ℕ) (cur : ℕ) (hs : keys.Sorted (· < ·))
    (hcur : cur ∈ keys) : prevCh keys (nextCh keys cur) = cur := by
  have hne : keys ≠ [] := List.ne_nil_of_mem hcur
  have hnd : keys.Nodup := hs.nodup
  have hn : 0 < keys.length := List.length_pos.mpr hne
  have hi : keys.indexOf cur < keys.length := List.indexOf_lt_length.mpr hcur
  have hj : (keys.indexOf cur + 1) % keys.length < keys.length :=
    Nat.mod_lt _ hn
  have hnext : nextCh keys cur = keys.getD ((keys.indexOf cur + 1) % keys.length) 0 := by
    simp [nextCh, hne, hcur]
  have hbmem : keys.getD ((keys.indexOf cur + 1) % keys.length) 0 ∈ keys :=
    getD_mem keys _ hj
  rw [hnext, prevCh, if_neg hne, if_neg (by simpa using hbmem),
    indexOf_getD keys hnd _ hj]
  rw [mod_cycle_pred (keys.indexOf cur) keys.length hi,
    List.getD_eq_getElem keys 0 hi]
  exact List.getElem_indexOf hi

theorem nextCh_prevCh (keys : List ℕ) (cur : ℕ) (hs : keys.Sorted (· < ·))
    (hcur : cur ∈ keys) : nextCh keys (prevCh keys cur) = cur := by
  have hne : keys ≠ [] := List.ne_nil_of_mem hcur
  have hnd : keys.Nodup := hs.nodup
  have hn : 0 < keys.length := List.length_pos.mpr hne
  have hi : keys.indexOf cur < keys.length := List.indexOf_lt_length.mpr hcur
  have hj : (keys.indexOf cur + keys.length - 1) % keys.length < keys.length :=
    Nat.mod_lt _ hn
  have hprev : prevCh keys cur =
      keys.getD ((keys.indexOf cur + keys.length - 1) % keys.length) 0 := by
    simp [prevCh, hne, hcur]
  have hbmem : keys.getD ((keys.indexOf cur + keys.length - 1) % keys.length) 0 ∈ keys :=
    getD_mem keys _ hj
  rw [hprev, nextCh, if_neg hne, if_neg (by simpa using hbmem),
    indexOf_getD keys hnd _ hj]
  rw [mod_cycle_succ (keys.indexOf cur) keys.length hi,
    List.getD_eq_getElem keys 0 hi]
  exact List.getElem_indexOf hi

/-- C10: channel navigation wraps around the sorted catalog keys: `next` and
`prev` are mutually inverse on catalog keys, an unknown key maps to the
smallest (for `next`) or largest (for `prev`) key, and the empty catalog
returns the argument unchanged. -/
theorem channel_nav_wraparound (m : List (ℕ × Channel)) (cur : ℕ)
    (hnd : (m.map Prod.fst).Nodup) :
    (m = [] → managerNext m cur = cur ∧ managerPrev m cur = cur) ∧
      (cur ∈ m.map Prod.fst →
        managerPrev m (managerNext m cur) = cur ∧
        managerNext m (managerPrev m cur) = cur) ∧
      (m ≠ [] → cur ∉ m.map Prod.fst →
        managerNext m cur ∈ m.map Prod.fst ∧
        (∀ k ∈ m.map Prod.fst, managerNext m cur ≤ k) ∧
        managerPrev m cur ∈ m.map Prod.fst ∧
        (∀ k ∈ m.map Prod.fst, k ≤ managerPrev m cur)) := by
  have hperm : List.Perm (sortedChannels m) (m.map Prod.fst) :=
    List.perm_insertionSort _ _
  have hndk : (sortedChannels m).Nodup := hperm.nodup_iff.mpr hnd
  have hsle : (sortedChannels m).Sorted (· ≤ ·) :=
    List.sorted_insertionSort _ _
  have hs : (sortedChannels m).Sorted (· < ·) :=
    (hsle.and hndk).imp (fun h => lt_of_le_of_ne h.1 h.2)
  refine ⟨?_, ?_, ?_⟩
  · rintro rfl
    constructor <;> simp [managerNext, managerPrev, nextCh, prevCh, sortedChannels]
  · intro hcur
    have hcur' : cur ∈ sortedChannels m := hperm.mem_iff.mpr hcur
    exact ⟨prevCh_nextCh _ cur hs hcur', nextCh_prevCh _ cur hs hcur'⟩
  · intro hm hcur
    have hcur' : cur ∉ sortedChannels m := fun hx => hcur (hperm.mem_iff.mp hx)
    have hkne : sortedChannels m ≠ [] := by
      intro hk
      apply hm
      have := hperm.length_eq
      rw [hk] at this
      simp only [List.length_nil] at this
      cases m with
      | nil => rfl
      | cons a as => simp at this
    have hn : 0 < (sortedChannels m).length := List.length_pos.mpr hkne
    have hnext : managerNext m cur = (sortedChannels m).getD 0 0 := by
      simp [managerNext, nextCh, hkne, hcur']
    have hprev : managerPrev m cur = (sortedChannels m).getLastD 0 := by
      simp [managerPrev, prevCh, hkne, hcur']
    have hlastmem : (sortedChannels m).getLastD 0 ∈ sortedChannels m := by
      rw [getLastD_eq_getD]
      exact getD_mem _ _ (by omega)
    refine ⟨?_, ?_, ?_, ?_⟩
    · rw [hnext]; exact hperm.mem_iff.mp (getD_mem _ 0 hn)
    · intro k hk
      rw [hnext]
      exact sorted_getD_min _ hs k (hperm.mem_iff.mpr hk)
    · rw [hprev]; exact hperm.mem_iff.mp hlastmem
    · intro k hk
      rw [hprev]
      exact sorted_getD_max _ hs k (hperm.mem_iff.mpr hk)

/-- Witness for C10 on a concrete three-channel catalog. -/
theorem channel_nav_wraparound_witness :
    managerPrev [(2, {}), (5, {}), (1, {})] (managerNext [(2, {}), (5, {}), (1, {})] 2) = 2 :=
  ((channel_nav_wraparound [(2, {}), (5, {}), (1, {})] 2 (by decide)).2.1 (by decide)).1

theorem pyInt_floor (q : ℚ) (h : 0 ≤ q) : pyInt q = ⌊q⌋ := by
  rw [pyInt, Rat.floor_def]
  exact Int.tdiv_eq_ediv (Rat.num_nonneg.mpr h) (Int.natCast_nonneg q.den)

theorem pyInt_ceil (q : ℚ) (h : q < 0) : pyInt q = ⌈q⌉ := by
  have h2 : 0 ≤ -q := by linarith
  have h3 : pyInt (-q) = ⌊-q⌋ := pyInt_floor _ h2
  have h4 : pyInt (-q) = -pyInt q := by
    rw [pyInt, pyInt, Rat.num_neg_eq_neg_num, Rat.den_neg_eq_den, Int.neg_tdiv]
  have h5 : ⌈q⌉ = -⌊-q⌋ := by
    calc ⌈q⌉ = ⌈-(-q)⌉ := by rw [neg_neg]
    _ = -⌊-q⌋ := Int.ceil_neg
  omega

/-- The Broadcast Clock conversion exactly as the spec words it:
`ticks(wall_clock_seconds) = round(wall_clock_seconds * 1_000_000)`; declared
for comparison against the source's `elapsedUs`. -/
def ticksSpec (ws : ℚ) : ℤ := round (ws * (TICK_HZ : ℚ))

/-- C7 counterexample: at a wall-clock difference of 3/2,000,000 s (1.5 µs)
the source's `int()` truncates the product 1.5 to 1 tick, while the spec's
`round` gives 2 — the conversion is not `round`. -/
theorem clock_round_counterexample :
    elapsedUs (3 / 2000000) 0 = 1 ∧ ticksSpec (3 / 2000000 - 0) = 2 ∧
      elapsedUs (3 / 2000000) 0 ≠ ticksSpec (3 / 2000000 - 0) := by
  have harg : ((3 / 2000000 : ℚ) - 0) * (TICK_HZ : ℚ) = 3 / 2 := by
    norm_num [TICK_HZ]
  have hfloor : ⌊(3 / 2 : ℚ)⌋ = 1 := by
    rw [Int.floor_eq_iff] <;> norm_num
  have h1 : elapsedUs (3 / 2000000) 0 = 1 := by
    rw [elapsedUs, harg, pyInt_floor _ (by norm_num), hfloor]
  have h2 : ticksSpec (3 / 2000000 - 0) = 2 := by
    rw [ticksSpec, harg, round_eq]
    have : (3 / 2 : ℚ) + 1 / 2 = 2 := by norm_num
    rw [this]
    exact_mod_cast Int.floor_intCast 2
  exact ⟨h1, h2, by rw [h1, h2]; decide⟩

/-- C7 (amended): the clock-boundary conversion
`elapsed_us = int((now - ref) * TICK_HZ)` truncates toward zero — the floor
for a non-negative wall-clock difference and the ceiling for a negative one,
not `round` — and the segment offset is then computed from those integer
ticks (the modulo, index selection and subtraction all happen on integers,
with a single exact division by 10⁶ at the end). -/
theorem clock_truncates (now ref : ℚ) :
    (0 ≤ now - ref → elapsedUs now ref = ⌊(now - ref) * (TICK_HZ : ℚ)⌋) ∧
      (now - ref < 0 → elapsedUs now ref = ⌈(now - ref) * (TICK_HZ : ℚ)⌉) ∧
      (∀ chan : Channel, chan.total_us ≠ 0 →
        (offsetCh chan now ref).2.1 =
          ((relUs chan (elapsedUs now ref) : ℚ) -
            (chan.start_us.getD (segIdx chan (relUs chan (elapsedUs now ref))) 0 : ℚ))
            / 1000000) := by
  refine ⟨?_, ?_, ?_⟩
  · intro h
    rw [elapsedUs]
    exact pyInt_floor _ (mul_nonneg h (by positivity))
  · intro h
    rw [elapsedUs]
    refine pyInt_ceil _ ?_
    have htick : (0 : ℚ) < (TICK_HZ : ℚ) := by norm_num [TICK_HZ]
    exact mul_neg_of_neg_of_pos h htick
  · intro chan h
    simp [offsetCh, h]

/-- Witness for the amended C7 at a one-second difference. -/
theorem clock_truncates_witness :
    elapsedUs 1 0 = ⌊((1 : ℚ) - 0) * (TICK_HZ : ℚ)⌋ :=
  (clock_truncates 1 0).1 (by norm_num)

/-- Python string comparison `a < b`: lexicographic on code points. -/
def charListLt : List Char → List Char → Bool
  | [], [] => false
  | [], _ :: _ => true
  | _ :: _, [] => false
  | a :: as, b :: bs =>
    if a < b then true else if a = b then charListLt as bs else false

/-- One element of a `_nat_key` key list: an integer run or a lowered text
run. -/
inductive NatKeyElem where
  | num (n : ℕ)
  | str (s : String)
deriving Repr, DecidableEq

/-- Maximal runs of characters agreeing on `isDigit`, in order. -/
def charRuns : List Char → List (List Char)
  | [] => []
  | c :: cs =>
    match charRuns cs with
    | [] => [[c]]
    | r :: rs =>
      if (r.headD c).isDigit = c.isDigit then (c :: r) :: rs else [c] :: r :: rs

/-- `int(t) if t.isdigit() else t.lower()` applied to one run. -/
def runToElem (r : List Char) : NatKeyElem :=
  if (r.headD ('0')).isDigit then NatKeyElem.num (decimalVal r)
  else NatKeyElem.str (String.mk (r.map Char.toLower))

def natKeyCore : List (List Char) → List NatKeyElem
  | [] => []
  | r :: rs => runToElem r :: natKeyCore rs

/-- `_nat_key` from playlist_builder.py: `re.split(r"(\d+)", s)` yields the
alternating text/digit pieces, with an empty text piece at an end that
starts or finishes with digits, each mapped by `runToElem`. -/
def natKey (s : String) : List NatKeyElem :=
  match charRuns s.data with
  | [] => [NatKeyElem.str ("")]
  | rs =>
    (if ((rs.headD []).headD ('x')).isDigit then [NatKeyElem.str ("")] else []) ++
      natKeyCore rs ++
      (if ((rs.getLastD []).headD ('x')).isDigit then [NatKeyElem.str ("")] else [])

/-- Python comparison of two key lists (`list.__lt__`): lexicographic with
elementwise `int`/`str` comparison. -/
def elemLtB : NatKeyElem → NatKeyElem → Bool
  | .num a, .num b => decide (a < b)
  | .str a, .str b => charListLt a.data b.data
  | _, _ => false

def keyLt : List NatKeyElem → List NatKeyElem → Bool
  | [], [] => false
  | [], _ :: _ => true
  | _ :: _, [] => false
  | a :: as, b :: bs => if a = b then keyLt as bs else elemLtB a b

/-- Stable ascending sort by `_nat_key`, as `vids.sort(key=_nat_key)`. -/
def insertByKey (x : String) : List String → List String
  | [] => [x]
  | y :: ys =>
    if keyLt (natKey x) (natKey y) then x :: y :: ys else y :: insertByKey x ys

def sortNatKey : List String → List String
  | [] => []
  | x :: xs => insertByKey x (sortNatKey xs)

/-- Plain `sorted(...)` over file names, as in
`ChannelManager._load_channel`'s probe loop: lexicographic string order. -/
def insertLex (x : String) : List String → List String
  | [] => [x]
  | y :: ys =>
    if charListLt x.data y.data then x :: y :: ys else y :: insertLex x ys

def pySortedStr : List String → List String
  | [] => []
  | x :: xs => insertLex x (pySortedStr xs)

/-- C8 counterexample: in the catalog actually loaded by
`ChannelManager._load_channel`, the probe loop iterates
`sorted(os.listdir(...))` — plain lexicographic order — so a directory
holding `clip2.mp4` and `clip10.mp4` is enumerated with `clip10.mp4` first,
even though the natural-key comparison orders `clip2.mp4` first. -/
theorem probe_sort_counterexample :
    (loadChannelProbe ((pySortedStr [("clip2.mp4"), ("clip10.mp4")]).map
        (fun n => (n, 1000000)))).files = [("clip10.mp4"), ("clip2.mp4")] ∧
      keyLt (natKey ("clip2.mp4")) (natKey ("clip10.mp4")) = true := by
  constructor
  · rfl
  · rfl

/-- C8 (amended): `playlist_builder` enumerates playable files in natural
sort order via `_nat_key` — numeric substrings compared as integers, so
`clip2.mp4` precedes `clip10.mp4` in the cache it builds — while
`ChannelManager._load_channel`'s probe path enumerates in plain
lexicographic order, where `clip10.mp4` precedes `clip2.mp4`. -/
theorem playlist_natural_probe_lexical :
    (addChannel ((sortNatKey [("clip10.mp4"), ("clip2.mp4")]).map
        (fun n => (n, 1000000, 24)))).files = [("clip2.mp4"), ("clip10.mp4")] ∧
      natKey ("clip2.mp4") =
        [NatKeyElem.str ("clip"), NatKeyElem.num 2, NatKeyElem.str (".mp"),
          NatKeyElem.num 4, NatKeyElem.str ("")] ∧
      natKey ("clip10.mp4") =
        [NatKeyElem.str ("clip"), NatKeyElem.num 10, NatKeyElem.str (".mp"),
          NatKeyElem.num 4, NatKeyElem.str ("")] ∧
      (loadChannelProbe ((pySortedStr [("clip2.mp4"), ("clip10.mp4")]).map
        (fun n => (n, 1000000)))).files = [("clip10.mp4"), ("clip2.mp4")] := by
  refine ⟨rfl, rfl, rfl, rfl⟩

/-- Modelled from the spec: `PAUSE_SENTINEL`, the reserved sentinel string
standing in place of a filename for a Pause segment.  app.py, overlays.py and
web_remote.py import it from channel_manager, but the channel_manager
iteration in src/ predates pause insertion and does not define it; its exact
string value is irrelevant to every property below. -/
def PAUSE_SENTINEL : String := "<PAUSE>"

/-- `SINGLE_VID_PAUSE = True` from config.py: force pause insertion even for
a single-clip channel. -/
def SINGLE_VID_PAUSE : Bool := true

/-- Modelled from the spec: the padding that rounds a pause ending at `endUs`
(measured from cycle start) up to the next whole-second boundary. -/
def pausePad (endUs : ℕ) : ℕ := (TICK_HZ - endUs % TICK_HZ) % TICK_HZ

/-- Modelled from the spec: a pause's effective duration — the configured
base value plus the whole-second padding, for a pause starting at
`startUs`. -/
def pauseDur (startUs base : ℕ) : ℕ := base + pausePad (startUs + base)

/-- Modelled from the spec: the pause-inserting segment enumeration of the
pause-card channel_manager iteration (absent from src/): one Pause segment
immediately after every Clip, including after the last.  `cum` is the
running start offset of the next segment. -/
def pauseSegs : List (String × ℕ) → ℕ → ℕ → List (String × ℕ)
  | [], _, _ => []
  | (f, d) :: rest, cum, base =>
    (f, d) :: ((PAUSE_SENTINEL), pauseDur (cum + d) base) ::
      pauseSegs rest (cum + d + pauseDur (cum + d) base) base

/-- Modelled from the spec: the Channel built from clips with pauses
inserted, with the same cumulative-start/total layout as the probe
builder. -/
def buildWithPauses (clips : List (String × ℕ)) (base : ℕ) : Channel :=
  let segs := pauseSegs clips 0 base
  { files := segs.map Prod.fst
    durations_us := segs.map Prod.snd
    start_us := segmentStarts (segs.map Prod.snd) 0
    total_us := (segs.map Prod.snd).sum }

theorem pauseEnd_aligned (e : ℕ) : (e + pausePad e) % TICK_HZ = 0 := by
  unfold pausePad TICK_HZ
  omega

theorem pauseSegs_length (clips : List (String × ℕ)) (cum base : ℕ) :
    (pauseSegs clips cum base).length = 2 * clips.length := by
  induction clips generalizing cum with
  | nil => rfl
  | cons p rest ih =>
    obtain ⟨f, d⟩ := p
    simp only [pauseSegs, List.length_cons, ih, List.length_cons]
    omega

theorem pauseSegs_files_even (clips : List (String × ℕ)) (cum base : ℕ) :
    ∀ i, i < clips.length →
      ((pauseSegs clips cum base).map Prod.fst).getD (2 * i) ("") =
        (clips.getD i (("", 0))).1 := by
  induction clips generalizing cum with
  | nil => intro i hi; simp at hi
  | cons p rest ih =>
    obtain ⟨f, d⟩ := p
    intro i hi
    cases i with
    | zero => simp [pauseSegs]
    | succ i =>
      rw [show 2 * (i + 1) = 2 * i + 1 + 1 by ring]
      simp only [pauseSegs, List.map_cons, List.getD_cons_succ]
      exact ih _ i (by simpa using hi)

theorem pauseSegs_files_odd (clips : List (String × ℕ)) (cum base : ℕ) :
    ∀ i, i < clips.length →
      ((pauseSegs clips cum base).map Prod.fst).getD (2 * i + 1) ("") =
        PAUSE_SENTINEL := by
  induction clips generalizing cum with
  | nil => intro i hi; simp at hi
  | cons p rest ih =>
    obtain ⟨f, d⟩ := p
    intro i hi
    cases i with
    | zero => simp [pauseSegs]
    | succ i =>
      rw [show 2 * (i + 1) + 1 = 2 * i + 1 + 1 + 1 by ring]
      simp only [pauseSegs, List.map_cons, List.getD_cons_succ]
      exact ih _ i (by simpa using hi)

theorem pauseSegs_take_aligned (clips : List (String × ℕ)) (cum base : ℕ) :
    ∀ i, i < clips.length →
      (cum + (((pauseSegs clips cum base).map Prod.snd).take (2 * i + 2)).sum)
        % TICK_HZ = 0 := by
  induction clips generalizing cum with
  | nil => intro i hi; simp at hi
  | cons p rest ih =>
    obtain ⟨f, d⟩ := p
    intro i hi
    cases i with
    | zero =>
      simp only [pauseSegs, List.map_cons, Nat.mul_zero, Nat.zero_add,
        List.take_succ_cons, List.take_zero, List.sum_cons, List.sum_nil]
      have h := pauseEnd_aligned (cum + d + base)
      unfold pauseDur
      unfold TICK_HZ at h ⊢
      omega
    | succ i =>
      rw [show 2 * (i + 1) + 2 = 2 * i + 2 + 1 + 1 by ring]
      simp only [pauseSegs, List.map_cons, List.take_succ_cons, List.sum_cons]
      have h := ih (cum + d + pauseDur (cum + d) base) i (by simpa using hi)
      unfold TICK_HZ at h ⊢
      omega

/-- C4 (spec-modelled): when pause insertion applies (more than one playable
clip, or `SINGLE_VID_PAUSE` with exactly one), the built Channel has one
Pause immediately after every Clip including the last — `2n` segments
alternating clip/pause — `total_us` is the sum of all clip and pause
durations, every pause ends on a whole-second cycle boundary, and 3 clips of
10 s/20 s/5 s with a 3 s pause base give 6 segments totalling 44 s. -/
theorem pause_insertion (clips : List (String × ℕ)) (base : ℕ)
    (h : 2 ≤ clips.length ∨ (SINGLE_VID_PAUSE = true ∧ clips.length = 1)) :
    (buildWithPauses clips base).files.length = 2 * clips.length ∧
      (∀ i, i < clips.length →
        (buildWithPauses clips base).files.getD (2 * i) ("") =
          (clips.getD i (("", 0))).1 ∧
        (buildWithPauses clips base).files.getD (2 * i + 1) ("") =
          PAUSE_SENTINEL) ∧
      (buildWithPauses clips base).total_us =
        (buildWithPauses clips base).durations_us.sum ∧
      (∀ i, i < clips.length →
        ((buildWithPauses clips base).start_us.getD (2 * i + 1) 0 +
          (buildWithPauses clips base).durations_us.getD (2 * i + 1) 0)
            % TICK_HZ = 0) ∧
      (buildWithPauses [(("a"), 10000000), (("b"), 20000000), (("c"), 5000000)]
          3000000).files.length = 6 ∧
      (buildWithPauses [(("a"), 10000000), (("b"), 20000000), (("c"), 5000000)]
          3000000).total_us = 44000000 := by
  refine ⟨?_, ?_, rfl, ?_, rfl, rfl⟩
  · simp only [buildWithPauses, List.length_map]
    exact pauseSegs_length clips 0 base
  · intro i hi
    exact ⟨pauseSegs_files_even clips 0 base i hi,
      pauseSegs_files_odd clips 0 base i hi⟩
  · intro i hi
    have hds : ((pauseSegs clips 0 base).map Prod.snd).length = 2 * clips.length := by
      rw [List.length_map]
      exact pauseSegs_length clips 0 base
    have hb : 2 * i + 1 < ((pauseSegs clips 0 base).map Prod.snd).length := by
      omega
    simp only [buildWithPauses]
    rw [segmentStarts_getD _ 0 (2 * i + 1) hb, Nat.zero_add,
      List.getD_eq_getElem _ 0 hb]
    have hsum := List.sum_take_succ ((pauseSegs clips 0 base).map Prod.snd)
      (2 * i + 1) hb
    rw [← hsum]
    have halign := pauseSegs_take_aligned clips 0 base i hi
    rw [Nat.zero_add] at halign
    rw [show 2 * i + 1 + 1 = 2 * i + 2 by ring]
    exact halign

/-- Witness for C4 at the spec's own three-clip example. -/
theorem pause_insertion_witness :
    (buildWithPauses [(("a"), 10000000), (("b"), 20000000), (("c"), 5000000)]
        3000000).files.length = 6 ∧
      (buildWithPauses [(("a"), 10000000), (("b"), 20000000), (("c"), 5000000)]
        3000000).total_us = 44000000 :=
  ⟨(pause_insertion [(("a"), 10000000), (("b"), 20000000), (("c"), 5000000)]
      3000000 (Or.inl (by decide))).2.2.2.2.1,
    (pause_insertion [(("a"), 10000000), (("b"), 20000000), (("c"), 5000000)]
      3000000 (Or.inl (by decide))).2.2.2.2.2⟩

/-- The orchestrator phase: `self.phase` is `"normal"` or `"static"`. -/
inductive Phase where
  | normal
  | static
deriving Repr, DecidableEq

/-- A `VideoPlayer` handle as the orchestrator sees it: the opened locator
and the volume (`open(path, off)` starts muted in `_loader`,
`set_volume(1.0)` un-mutes on reveal).  Decode internals are external. -/
structure Player where
  path : String := ""
  volume : ℚ := 0
deriving Repr, DecidableEq

/-- The `TVEmulator` transition state: the fields of app.py touched by
`_begin_static` / `_loader` / `_maybe_finish_static`.  `player = none` models
a closed active player; the static-noise player and overlay bookkeeping are
external rendering and are omitted. -/
structure EmuState where
  phase : Phase := Phase.normal
  static_start : ℚ := 0
  min_static : ℚ := 1 / 2
  next_ch : Option ℕ := none
  tmp_vp : Option Player := none
  tid : ℕ := 0
  player : Option Player := none
  curr_ch : Option ℕ := none
  curr_path : String := ""
deriving Repr, DecidableEq

/-- `TVEmulator._begin_static(dest)` at wall time `now`: close the active
player, enter the static phase, record the masking start, bump the
generation token and close any pending preloaded handle (`_close_tmp`).
Returns the new state and the handles closed. -/
def beginStatic (s : EmuState) (dest : ℕ) (now : ℚ) : EmuState × List Player :=
  ({ s with player := none,
            phase := Phase.static,
            static_start := now,
            next_ch := some dest,
            tid := s.tid + 1,
            tmp_vp := none },
    s.tmp_vp.toList)

/-- The preload half of `TVEmulator._loader`: if the destination resolves to
the pause sentinel the task returns without preparing anything; otherwise it
opens the destination muted. -/
def loaderPrepare (path : String) : Option Player :=
  if path = PAUSE_SENTINEL then none else some { path := path, volume := 0 }

/-- The handoff at the end of `TVEmulator._loader`: only a task whose
generation tag still equals the orchestrator's current token publishes its
handle into `tmp_vp`; a superseded task closes its own handle and changes
nothing. -/
def loaderHandoff (s : EmuState) (tid_tag : ℕ) (vp : Player) :
    EmuState × List Player :=
  if tid_tag = s.tid then ({ s with tmp_vp := some vp }, [])
  else (s, [vp])

/-- A whole `_loader` run against the state current at its reveal instant:
prepare (skipping the sentinel), then hand off. -/
def loaderRun (s : EmuState) (tid_tag : ℕ) (path : String) :
    EmuState × List Player :=
  match loaderPrepare path with
  | none => (s, [])
  | some vp => loaderHandoff s tid_tag vp

/-- `TVEmulator._maybe_finish_static` at wall time `now`: leave the static
phase only when a preloaded handle has arrived and the minimum mask duration
has elapsed; promote the handle un-muted and adopt the destination. -/
def maybeFinishStatic (s : EmuState) (now : ℚ) : EmuState :=
  if s.phase ≠ Phase.static ∨ s.tmp_vp = none then s
  else if now - s.static_start < s.min_static then s
  else
    match s.tmp_vp with
    | none => s
    | some vp =>
      { s with player := some { vp with volume := 1 },
               curr_ch := s.next_ch,
               curr_path := vp.path,
               tmp_vp := none,
               phase := Phase.normal }

/-- The Masking-exit condition exactly as the claim words it, for comparison
with `maybeFinishStatic`: minimum mask elapsed, and the destination resolved
to the sentinel or the preload arrived. -/
def specMaskExit (s : EmuState) (destPath : String) (now : ℚ) : Prop :=
  s.min_static ≤ now - s.static_start ∧
    (destPath = PAUSE_SENTINEL ∨ s.tmp_vp ≠ none)

/-- C5: evaluating the code at the failing input — a masking state whose
destination resolves to the pause sentinel.  `_loader` returns without
publishing (`loaderRun` is a no-op), and `_maybe_finish_static` keeps the
phase at static even long after the minimum mask duration, although the
claimed exit condition holds; the code's reveal is gated solely on the
arrival of a preloaded handle, and with `tmp_vp = none` the state never
changes at any time. -/
theorem masking_stuck_on_sentinel :
    loaderRun
        { phase := Phase.static, static_start := 0, min_static := 1 / 2,
          next_ch := some 3, tmp_vp := none, tid := 1, player := none,
          curr_ch := some 2, curr_path := ("x.mp4") } 1 PAUSE_SENTINEL =
      ({ phase := Phase.static, static_start := 0, min_static := 1 / 2,
          next_ch := some 3, tmp_vp := none, tid := 1, player := none,
          curr_ch := some 2, curr_path := ("x.mp4") }, []) ∧
      specMaskExit
        { phase := Phase.static, static_start := 0, min_static := 1 / 2,
          next_ch := some 3, tmp_vp := none, tid := 1, player := none,
          curr_ch := some 2, curr_path := ("x.mp4") } PAUSE_SENTINEL 10 ∧
      maybeFinishStatic
        { phase := Phase.static, static_start := 0, min_static := 1 / 2,
          next_ch := some 3, tmp_vp := none, tid := 1, player := none,
          curr_ch := some 2, curr_path := ("x.mp4") } 10 =
        { phase := Phase.static, static_start := 0, min_static := 1 / 2,
          next_ch := some 3, tmp_vp := none, tid := 1, player := none,
          curr_ch := some 2, curr_path := ("x.mp4") } ∧
      (maybeFinishStatic
        { phase := Phase.static, static_start := 0, min_static := 1 / 2,
          next_ch := some 3, tmp_vp := none, tid := 1, player := none,
          curr_ch := some 2, curr_path := ("x.mp4") } 10).phase = Phase.static := by
  refine ⟨rfl, ⟨by norm_num, Or.inl rfl⟩, ?_, ?_⟩
  · simp [maybeFinishStatic]
  · simp [maybeFinishStatic]

/-- The C6 scenario: begin a transition to `a` at `t1`, then — before `a`'s
reveal — begin one to `b` at `t2`; task 1 (tagged with the token taken at
transition `a`) and task 2 then perform their handoffs in order against the
current state, and the main loop finally polls `_maybe_finish_static` at
`tr`.  Returns the final state and every handle closed along the way. -/
def twoTransitionRun (s0 : EmuState) (a b : ℕ) (t1 t2 tr : ℚ)
    (pa pb : String) : EmuState × List Player :=
  let r1 := beginStatic s0 a t1
  let r2 := beginStatic r1.1 b t2
  let r3 := loaderRun r2.1 r1.1.tid pa
  let r4 := loaderRun r3.1 r2.1.tid pb
  (maybeFinishStatic r4.1 tr, r1.2 ++ r2.2 ++ r3.2 ++ r4.2)

/-- C6: a preload task superseded by a later generation token leaves the
orchestrator state untouched and closes its own prepared handle, and in the
two-transition scenario exactly one reveal happens — the latest
destination's: the final state plays channel `b`'s handle un-muted while
`a`'s prepared handle ends up closed, never promoted. -/
theorem generation_cancellation (s0 : EmuState) (a b : ℕ) (t1 t2 tr : ℚ)
    (pa pb : String)
    (hpa : pa ≠ PAUSE_SENTINEL) (hpb : pb ≠ PAUSE_SENTINEL)
    (htr : s0.min_static ≤ tr - t2) :
    (∀ s : EmuState, ∀ tag : ℕ, ∀ vp : Player, tag ≠ s.tid →
      loaderHandoff s tag vp = (s, [vp])) ∧
      (twoTransitionRun s0 a b t1 t2 tr pa pb).1.phase = Phase.normal ∧
      (twoTransitionRun s0 a b t1 t2 tr pa pb).1.curr_ch = some b ∧
      (twoTransitionRun s0 a b t1 t2 tr pa pb).1.curr_path = pb ∧
      (twoTransitionRun s0 a b t1 t2 tr pa pb).1.player =
        some { path := pb, volume := 1 } ∧
      ({ path := pa, volume := 0 } : Player) ∈
        (twoTransitionRun s0 a b t1 t2 tr pa pb).2 ∧
      (twoTransitionRun s0 a b t1 t2 tr pa pb).1.tmp_vp = none := by
  have hstale : ∀ s : EmuState, ∀ tag : ℕ, ∀ vp : Player, tag ≠ s.tid →
      loaderHandoff s tag vp = (s, [vp]) := by
    intro s tag vp h
    simp [loaderHandoff, h]
  have htid : s0.tid + 1 ≠ s0.tid + 2 := by omega
  have hnotlt : ¬ tr - t2 < s0.min_static := not_lt.mpr htr
  refine ⟨hstale, ?_, ?_, ?_, ?_, ?_, ?_⟩ <;>
    simp [twoTransitionRun, beginStatic, loaderRun, loaderPrepare,
      loaderHandoff, maybeFinishStatic, hpa, hpb, htid, hnotlt]

/-- Witness for C6 at a concrete pair of back-to-back channel changes. -/
theorem generation_cancellation_witness :
    (twoTransitionRun {} 1 2 0 0 10 ("a.mp4") ("b.mp4")).1.curr_ch = some 2 ∧
      ({ path := ("a.mp4"), volume := 0 } : Player) ∈
        (twoTransitionRun {} 1 2 0 0 10 ("a.mp4") ("b.mp4")).2 :=
  ⟨(generation_cancellation {} 1 2 0 0 10 ("a.mp4") ("b.mp4")
      (by decide) (by decide) (by norm_num)).2.2.1,
    (generation_cancellation {} 1 2 0 0 10 ("a.mp4") ("b.mp4")
      (by decide) (by decide) (by norm_num)).2.2.2.2.2.1⟩

end PyTV
